import Mathlib

/-!
Verification development for the crypto-battleship-p2p repository.

This file gives a shallow embedding, in Lean 4, of the parts of the code
that the specification claims talk about:

* the Merkle commitment scheme of crypto_battleship_clean.py
  (SimpleMerkleTree, MerkleGridCommitment, MerkleProof);
* the identity derivation of crypto_battleship_clean.py (CryptoIdentity);
* the ledger of src/crypto/blockchain.py (Blockchain, Block, Transaction);
* the protocol orchestrator of src/crypto/protocol.py (ZeroTrustProtocol).

Conventions of the embedding:

* Python str is modelled as a list of characters (Str below); Python bytes
  as a list of naturals (each byte being a natural below 256 when produced
  by real hashing).
* sha256 and the ECDSA primitives are external library calls, so they are
  carried as parameters (the fields of the environment structures below);
  every theorem quantifies over them, possibly with the hypothesis that
  hash outputs are genuine byte strings.
* Fallible Python code (raising) is modelled with Except; a raised
  exception is an Except.error value.
* time.time() values are supplied as explicit inputs (modelled as Nat
  ticks; no claim below depends on float behaviour).
* Recursions that Python performs with while loops over shrinking lists
  are modelled with an explicit fuel argument so that every definition is
  structurally recursive and evaluates inside the kernel.
-/

/-- Python str, modelled as a list of characters. -/
abbrev Str := List Char

namespace Battleship

/-! ## String utilities: split, decimal, hex -/

/-- Python s.split(c) for a one character separator: keeps empty fields,
returns one (possibly empty) piece even for the empty string. -/
def splitOnChar (c : Char) (s : Str) : List Str :=
  s.foldr
    (fun a acc =>
      if a = c then [] :: acc
      else
        match acc with
        | [] => [[a]]
        | h :: t => (a :: h) :: t)
    [[]]

/-- Decimal digit character for n below 10. -/
def digitChar (n : Nat) : Char := Char.ofNat (48 + n)

/-- Fuel driven decimal printer for naturals (the recursion divides by 10,
so fuel larger than n suffices). -/
def natDigitsF : Nat → Nat → Str
  | 0, _ => []
  | fuel + 1, n =>
    if n < 10 then [digitChar n]
    else natDigitsF fuel (n / 10) ++ [digitChar (n % 10)]

/-- Decimal rendering of a natural, as Python str(n) produces for n ≥ 0. -/
def natDigits (n : Nat) : Str := natDigitsF (n + 1) n

/-- Python str(i) for an integer. -/
def pyIntStr (i : Int) : Str :=
  if i < 0 then '-' :: natDigits i.natAbs else natDigits i.toNat

/-- Numeric value of a digit string (no validity check). -/
def parseNatCore (s : Str) : Nat :=
  s.foldl (fun a c => a * 10 + (c.toNat - 48)) 0

/-- All characters are decimal digits. -/
def isDigits (s : Str) : Bool := s.all (fun c => 48 ≤ c.toNat && c.toNat ≤ 57)

/-- Model of Python int(s) restricted to an optional sign followed by
decimal digits; inputs outside that shape raise ValueError, modelled as
none.  (The Python original also strips whitespace and allows inner
underscores; no input exercised by the claims uses those forms.) -/
def parseInt (s : Str) : Option Int :=
  match s with
  | [] => none
  | c :: rest =>
    if c = '-' then
      if rest.isEmpty = false ∧ isDigits rest then some (-(parseNatCore rest : Int)) else none
    else if c = '+' then
      if rest.isEmpty = false ∧ isDigits rest then some (parseNatCore rest : Int) else none
    else if isDigits (c :: rest) then some (parseNatCore (c :: rest) : Int) else none

/-- Lower case hex digit character for n below 16. -/
def hexDigitChar (n : Nat) : Char :=
  if n < 10 then Char.ofNat (48 + n) else Char.ofNat (87 + n)

/-- Two hex characters of one byte. -/
def byteHex (b : Nat) : Str := [hexDigitChar (b / 16), hexDigitChar (b % 16)]

/-- Python bytes.hex(): lower case hex of each byte in order. -/
def hexEncode (bs : List Nat) : Str := bs.flatMap byteHex

/-- Value of one hex digit character (upper or lower case), none otherwise. -/
def hexDigitVal (c : Char) : Option Nat :=
  let n := c.toNat
  if 48 ≤ n ∧ n ≤ 57 then some (n - 48)
  else if 97 ≤ n ∧ n ≤ 102 then some (n - 87)
  else if 65 ≤ n ∧ n ≤ 70 then some (n - 55)
  else none

/-- Model of Python bytes.fromhex(s): consumes hex digit pairs; odd length
or a non hex character raises ValueError, modelled as none.  (The Python
original additionally allows spaces between bytes; no claim input uses
them.) -/
def hexDecode : Str → Option (List Nat)
  | [] => some []
  | [_] => none
  | c1 :: c2 :: rest =>
    match hexDigitVal c1, hexDigitVal c2, hexDecode rest with
    | some d1, some d2, some r => some ((16 * d1 + d2) :: r)
    | _, _, _ => none

/-- Model of str.encode() for the ASCII data handled here: code point of
each character. -/
def strEncode (s : Str) : List Nat := s.map Char.toNat

/-! ## SimpleMerkleTree (crypto_battleship_clean.py lines 45-121)

All definitions are parametric in the byte level hash function Hb, the
model of hashlib.sha256(data).digest(). -/

/-- One climb of the tree: hash adjacent pairs, an odd trailing node is
paired with itself (the inner for loop of _build_tree and of get_proof). -/
def pairUp (Hb : List Nat → List Nat) : List (List Nat) → List (List Nat)
  | [] => []
  | [a] => [Hb (a ++ a)]
  | a :: b :: rest => Hb (a ++ b) :: pairUp Hb rest

/-- The while loop of _build_tree, with fuel (the level length shrinks, so
fuel equal to the initial length suffices). -/
def treeFoldF (Hb : List Nat → List Nat) : Nat → List (List Nat) → List (List Nat)
  | 0, l => l
  | fuel + 1, l => if l.length ≤ 1 then l else treeFoldF Hb fuel (pairUp Hb l)

/-- Result of _build_tree on the given leaves: the single root node (or []
for no leaves). -/
def treeFold (Hb : List Nat → List Nat) (l : List (List Nat)) : List (List Nat) :=
  treeFoldF Hb l.length l

/-- self.root: tree[0] if the tree is non empty, else 32 zero bytes. -/
def merkleRoot (Hb : List Nat → List Nat) (leaves : List (List Nat)) : List Nat :=
  (treeFold Hb leaves).headD (List.replicate 32 0)

/-- The loop body of get_proof at one level: the recorded sibling together
with its is_left flag, then continue on the parent level at index i / 2. -/
def getProofF (Hb : List Nat → List Nat) : Nat → List (List Nat) → Nat → List (List Nat × Bool)
  | 0, _, _ => []
  | fuel + 1, level, i =>
    if level.length ≤ 1 then []
    else
      let entry :=
        if i % 2 = 0 then
          if i + 1 < level.length then (level.getD (i + 1) [], false)
          else (level.getD i [], false)
        else (level.getD (i - 1) [], true)
      entry :: getProofF Hb fuel (pairUp Hb level) (i / 2)

/-- SimpleMerkleTree.get_proof: empty for an out of range index, otherwise
the sibling path from the leaf level up. -/
def getProof (Hb : List Nat → List Nat) (leaves : List (List Nat)) (i : Nat) :
    List (List Nat × Bool) :=
  if leaves.length ≤ i then [] else getProofF Hb leaves.length leaves i

/-- The folding loop of SimpleMerkleTree.verify_proof. -/
def foldPath (Hb : List Nat → List Nat) (leaf : List Nat)
    (path : List (List Nat × Bool)) : List Nat :=
  path.foldl (fun cur st => if st.2 then Hb (st.1 ++ cur) else Hb (cur ++ st.1)) leaf

/-- SimpleMerkleTree.verify_proof(leaf_data, proof, root). -/
def simpleVerifyProof (Hb : List Nat → List Nat) (leafData : Str)
    (path : List (List Nat × Bool)) (root : List Nat) : Bool :=
  foldPath Hb (Hb (strEncode leafData)) path == root

/-! ## MerkleGridCommitment (crypto_battleship_clean.py lines 124-199) -/

/-- One step of a serialized Merkle path: the dict with keys hash and
is_left built by generate_proof. -/
structure PathStep where
  hash : Str
  is_left : Bool
deriving DecidableEq

/-- The MerkleProof dataclass. -/
structure MerkleProof where
  position : Int × Int
  has_ship : Bool
  result : Str
  leaf_data : Str
  merkle_path : List PathStep
deriving DecidableEq

/-- The leaf preimage of one cell: the f-string joining seed hex, x, y and
the Python rendering of the boolean with colons. -/
def cellData (seed : List Nat) (x y : Nat) (hs : Bool) : Str :=
  hexEncode seed ++ ':' :: natDigits x ++ ':' :: natDigits y ++ ':' ::
    (if hs then "True".toList else "False".toList)

/-- Whether the committed predicate marks the cell: membership of (x, y) in
the ship position set. -/
def hasShipAt (pos : List (Int × Int)) (x y : Nat) : Bool :=
  decide (((x : Int), (y : Int)) ∈ pos)

/-- self.grid_data: one cell preimage per key, x major then y, for the
nested ranges of the constructor. -/
def gridData (seed : List Nat) (gs : Nat) (pos : List (Int × Int)) : List Str :=
  (List.range gs).flatMap fun x =>
    (List.range gs).map fun y => cellData seed x y (hasShipAt pos x y)

/-- The leaf digests of the grid tree. -/
def gridLeaves (Hb : List Nat → List Nat) (seed : List Nat) (gs : Nat)
    (pos : List (Int × Int)) : List (List Nat) :=
  (gridData seed gs pos).map fun d => Hb (strEncode d)

/-- self.root of MerkleGridCommitment: hex of the tree root. -/
def gridRootHex (Hb : List Nat → List Nat) (seed : List Nat) (gs : Nat)
    (pos : List (Int × Int)) : Str :=
  hexEncode (merkleRoot Hb (gridLeaves Hb seed gs pos))

/-- MerkleGridCommitment.generate_proof(x, y): ValueError outside the grid,
otherwise the proof for leaf index x * grid_size + y. -/
def generateProof (Hb : List Nat → List Nat) (seed : List Nat) (gs : Nat)
    (pos : List (Int × Int)) (x y : Int) : Except String MerkleProof :=
  if x < 0 ∨ (gs : Int) ≤ x ∨ y < 0 ∨ (gs : Int) ≤ y then .error "ValueError"
  else
    let xn := x.toNat
    let yn := y.toNat
    let index := xn * gs + yn
    let hs := decide ((x, y) ∈ pos)
    let leaf := (gridData seed gs pos).getD index []
    let tuples := getProof Hb (gridLeaves Hb seed gs pos) index
    .ok
      { position := (x, y)
        has_ship := hs
        result := if hs then "hit".toList else "miss".toList
        leaf_data := leaf
        merkle_path := tuples.map fun t => { hash := hexEncode t.1, is_left := t.2 } }

/-- MerkleGridCommitment.verify_proof(proof, committed_root), lines
170-199.  The Except layer records the places where the Python code can
raise: int() on the two coordinate fields of the preimage, bytes.fromhex on
each path digest, bytes.fromhex on the claimed root. -/
def merkleVerifyProof (Hb : List Nat → List Nat) (p : MerkleProof)
    (committedRoot : Str) : Except String Bool :=
  let parts := splitOnChar ':' p.leaf_data
  if parts.length ≠ 4 then .ok false
  else
    match parseInt (parts.getD 1 []), parseInt (parts.getD 2 []) with
    | some x, some y =>
      let hs := parts.getD 3 [] == "True".toList
      if (x, y) ≠ p.position then .ok false
      else if hs ≠ p.has_ship then .ok false
      else if p.result ≠ (if hs then "hit".toList else "miss".toList) then .ok false
      else
        match (p.merkle_path.mapM fun st => (hexDecode st.hash).map fun b => (b, st.is_left)) with
        | none => .error "ValueError"
        | some tuples =>
          match hexDecode committedRoot with
          | none => .error "ValueError"
          | some rootBytes => .ok (simpleVerifyProof Hb p.leaf_data tuples rootBytes)
    | _, _ => .error "ValueError"

/-! ## CryptoIdentity (crypto_battleship_clean.py lines 275-311) -/

/-- External cryptographic primitives used by CryptoIdentity, carried as
parameters: Hb is sha256 digest over bytes; privOf models
SigningKey.from_string on secp256k1 (the interpretation of 32 bytes as a
scalar; key objects are modelled as opaque strings); pubOf models
get_verifying_key; pubBytes models VerifyingKey.to_string(). -/
structure IdEnv where
  Hb : List Nat → List Nat
  privOf : List Nat → Str
  pubOf : Str → Str
  pubBytes : Str → List Nat

/-- Lexicographic comparison on coordinate pairs, the order used by Python
sorted() on tuples of two ints. -/
def posLe (a b : Int × Int) : Bool :=
  a.1 < b.1 || (a.1 == b.1 && a.2 ≤ b.2)

/-- Insert into a sorted list of positions. -/
def insertPos (a : Int × Int) : List (Int × Int) → List (Int × Int)
  | [] => [a]
  | b :: rest => if posLe a b then a :: b :: rest else b :: insertPos a rest

/-- Python sorted(ship_positions). -/
def sortPos : List (Int × Int) → List (Int × Int)
  | [] => []
  | a :: rest => insertPos a (sortPos rest)

/-- json.dumps of a list of coordinate pairs (tuples render as JSON
arrays, with the default ", " item separator). -/
def dumpsPosList (l : List (Int × Int)) : Str :=
  '[' ::
    (List.intercalate ", ".toList
      (l.map fun p => '[' :: pyIntStr p.1 ++ ", ".toList ++ pyIntStr p.2 ++ [']'])) ++ [']']

/-- The CryptoIdentity object: seed, positions, derived keys, player id. -/
structure CryptoIdentityRec where
  seed : List Nat
  ship_positions : List (Int × Int)
  private_key : Str
  public_key : Str
  player_id : Str
deriving DecidableEq

/-- CryptoIdentity.__init__: key material is sha256 of seed followed by
the canonical (sorted, JSON) serialization of the positions; the player id
is the first 16 hex characters of sha256 of the public key bytes. -/
def mkCryptoIdentity (e : IdEnv) (seed : List Nat) (pos : List (Int × Int)) :
    CryptoIdentityRec :=
  let keyMaterial := e.Hb (seed ++ strEncode (dumpsPosList (sortPos pos)))
  let priv := e.privOf keyMaterial
  let pub := e.pubOf priv
  { seed := seed
    ship_positions := pos
    private_key := priv
    public_key := pub
    player_id := (hexEncode (e.Hb (e.pubBytes pub))).take 16 }

/-! ## Ledger (src/crypto/blockchain.py) and orchestrator (src/crypto/protocol.py) -/

/-- MoveType of blockchain.py. -/
inductive MoveTypeT where
  | commitment
  | action
  | result
  | termination
deriving DecidableEq

/-- Shallow JSON values, used for the data field of transactions (the
Python Dict payloads).  A jts leaf is a time.time() stamp. -/
inductive Json where
  | jnull : Json
  | jbool : Bool → Json
  | jint : Int → Json
  | jstr : Str → Json
  | jts : Nat → Json
  | jarr : List Json → Json
  | jobj : List (Str × Json) → Json

/-- The Transaction dataclass.  participant_id is Option Str because
protocol.py can store the opponent id before it is known (None). -/
structure Tx where
  move_type : MoveTypeT
  participant_id : Option Str
  data : Json
  timestamp : Nat
  signature : Str

/-- External library calls of blockchain.py and protocol.py, carried as
parameters: shaHex is sha256(s.encode()).hexdigest(); serTxs is the
json.dumps of the transaction list inside _calculate_block_hash; tsStr is
the str() rendering of a float timestamp inside the same f-string; jdump
is json.dumps(obj, sort_keys=True); sign is identity.sign_message; verify
is identity.verify_signature(message, signature, public_key) with key
objects modelled as opaque strings; pubHex is public_key.to_string().hex().
-/
structure Env where
  shaHex : Str → Str
  serTxs : List Tx → Str
  tsStr : Nat → Str
  jdump : Json → Str
  sign : Str → Str
  verify : Str → Str → Str → Bool
  pubHex : Str → Str

/-- Block._calculate_block_hash: sha256 of the colon joined f-string of
prev hash, serialized transactions, block number and timestamp. -/
def calcBlockHash (e : Env) (prev : Str) (txs : List Tx) (n : Nat) (ts : Nat) : Str :=
  e.shaHex (prev ++ ':' :: e.serTxs txs ++ ':' :: natDigits n ++ ':' :: e.tsStr ts)

/-- The Block object; the stored hash is computed from the other four
fields at construction time. -/
structure BlockRec where
  prev_hash : Str
  transactions : List Tx
  block_number : Nat
  timestamp : Nat
  hash : Str

/-- Block.__init__ (the timestamp is the time.time() input). -/
def mkBlock (e : Env) (prev : Str) (txs : List Tx) (n : Nat) (ts : Nat) : BlockRec :=
  { prev_hash := prev
    transactions := txs
    block_number := n
    timestamp := ts
    hash := calcBlockHash e prev txs n ts }

/-- The Blockchain object: chain plus pending transaction buffer. -/
structure ChainSt where
  chain : List BlockRec
  pending : List Tx

/-- Blockchain.__init__ plus create_genesis_block: one genesis block with
a prev hash of 64 zero characters, no transactions and index 0. -/
def initChain (e : Env) (ts0 : Nat) : ChainSt :=
  { chain := [mkBlock e (List.replicate 64 '0') [] 0 ts0], pending := [] }

/-- Blockchain.add_transaction: append to the pending buffer, return True.
-/
def addTransaction (tx : Tx) (st : ChainSt) : Bool × ChainSt :=
  (true, { st with pending := st.pending ++ [tx] })

/-- The hash of chain[-1] (the chain is never empty in reachable states).
-/
def lastHash (st : ChainSt) : Str :=
  match st.chain.getLast? with
  | some b => b.hash
  | none => []

/-- Blockchain.mine_block: None on an empty buffer, otherwise seal the
whole buffer into one new block, append it and clear the buffer. -/
def mineBlock (e : Env) (ts : Nat) (st : ChainSt) : Option BlockRec × ChainSt :=
  if st.pending.isEmpty then (none, st)
  else
    let b := mkBlock e (lastHash st) st.pending st.chain.length ts
    (some b, { chain := st.chain ++ [b], pending := [] })

/-- The two checks of the verify_chain loop body, for a block at i ≥ 1
whose predecessor is prev. -/
def chainOkFrom (e : Env) : BlockRec → List BlockRec → Bool
  | _, [] => true
  | prev, b :: rest =>
    (b.prev_hash == prev.hash) &&
      (b.hash == calcBlockHash e b.prev_hash b.transactions b.block_number b.timestamp) &&
      chainOkFrom e b rest

/-- Blockchain.verify_chain: the loop runs from index 1, so the genesis
block itself is only used as a predecessor. -/
def verifyChain (e : Env) (st : ChainSt) : Bool :=
  match st.chain with
  | [] => true
  | b :: rest => chainOkFrom e b rest

/-- One ledger mutation, as performed by the orchestrator: add one
transaction, or seal a block at some time.time() tick. -/
inductive ChainOp where
  | addOp : Tx → ChainOp
  | mineOp : Nat → ChainOp

/-- Apply one mutation (discarding the returned value). -/
def applyChainOp (e : Env) (st : ChainSt) : ChainOp → ChainSt
  | .addOp tx => (addTransaction tx st).2
  | .mineOp ts => (mineBlock e ts st).2

/-- The VerificationResult dataclass (details defaults to None). -/
structure VerificationResultR where
  valid : Bool
  reason : Str
  details : Option Json := none

/-- The ZeroTrustProtocol state: own identity data, opponent data once
set, the owned ledger, the protocol flags and counters.  Key objects are
opaque strings (myPub and the stored opponent key). -/
structure ProtoSt where
  myId : Str
  myPub : Str
  oppId : Option Str
  oppPub : Option Str
  oppCommitment : Option Str
  bc : ChainSt
  protocolActive : Bool
  myActions : Nat
  oppActions : Nat

/-- ZeroTrustProtocol.get_my_commitment: the dict literal with exactly the
participant_id and public_key entries, in that order. -/
def getMyCommitment (e : Env) (st : ProtoSt) : List (Str × Str) :=
  [("participant_id".toList, st.myId), ("public_key".toList, e.pubHex st.myPub)]

/-- BattleshipZeroTrust.get_commitment_data
(src/game/battleship_protocol.py lines 140-144): the framework commitment
dict with the grid commitment root added under a fresh key. -/
def getCommitmentData (e : Env) (st : ProtoSt) (gridRoot : Str) : List (Str × Str) :=
  getMyCommitment e st ++ [("commitment_root".toList, gridRoot)]

/-- Record one transaction and seal, the add_transaction plus mine_block
pair the orchestrator performs after each accepted step. -/
def recordAndSeal (e : Env) (tx : Tx) (tsB : Nat) (st : ChainSt) : ChainSt :=
  (mineBlock e tsB (addTransaction tx st).2).2

/-- ZeroTrustProtocol.verify_opponent_action (protocol.py lines 157-200):
no stored opponent key fails; an invalid signature over the sorted JSON of
the payload fails; otherwise the action is recorded under the opponent id
and the opponent action counter grows.  There is no other check. -/
def verifyOpponentAction (e : Env) (st : ProtoSt) (action : Json) (sig : Str)
    (txTs tsB : Nat) : VerificationResultR × ProtoSt :=
  match st.oppPub with
  | none => ({ valid := false, reason := "Opponent commitment not set".toList }, st)
  | some k =>
    if e.verify (e.jdump action) sig k = false then
      ({ valid := false, reason := "Invalid signature - opponent may be cheating!".toList }, st)
    else
      let tx : Tx :=
        { move_type := .action
          participant_id := st.oppId
          data := action
          timestamp := txTs
          signature := sig }
      ({ valid := true, reason := "Opponent action verified and recorded".toList },
        { st with
          bc := recordAndSeal e tx tsB st.bc
          oppActions := st.oppActions + 1 })

/-- The verification_data dict built by ZeroTrustProtocol.verify_proof on
success (protocol.py lines 283-293). -/
def verificationData (p : MerkleProof) (committedRoot : Str) (oppId : Option Str)
    (ts : Nat) : Json :=
  .jobj
    [("action".toList, .jstr "verified_proof".toList),
     ("position".toList, .jarr [.jint p.position.1, .jint p.position.2]),
     ("result".toList, .jstr p.result),
     ("has_value".toList, .jbool p.has_ship),
     ("merkle_path".toList,
       .jarr (p.merkle_path.map fun stp =>
         .jobj [("hash".toList, .jstr stp.hash), ("is_left".toList, .jbool stp.is_left)])),
     ("leaf_data".toList, .jstr p.leaf_data),
     ("committed_root".toList, .jstr committedRoot),
     ("opponent_id".toList, match oppId with | some s => .jstr s | none => .jnull),
     ("timestamp".toList, .jts ts)]

/-- ZeroTrustProtocol.verify_proof (protocol.py lines 244-313).  The
Python body builds a proof_data dict for the signature but never calls
verify_signature on it (the proof_signature argument is read by no check);
it then runs the cryptographic Merkle verification, and on success signs
and records a Result transaction.  The Except layer propagates the
exceptions the Merkle verification can raise. -/
def verifyProofP (e : Env) (Hb : List Nat → List Nat) (st : ProtoSt)
    (p : MerkleProof) (proofSignature : Str) (committedRoot : Str) (ts : Nat) :
    Except String (VerificationResultR × ProtoSt) :=
  match st.oppPub with
  | none => .ok ({ valid := false, reason := "Opponent not set up".toList }, st)
  | some _ =>
    match merkleVerifyProof Hb p committedRoot with
    | .error err => .error err
    | .ok false =>
      .ok ({ valid := false, reason := "Invalid proof - opponent is cheating!".toList }, st)
    | .ok true =>
      let vd := verificationData p committedRoot st.oppId ts
      let sig := e.sign (e.jdump vd)
      let tx : Tx :=
        { move_type := .result
          participant_id := some st.myId
          data := vd
          timestamp := ts
          signature := sig }
      .ok
        ({ valid := true
           reason := "Proof verified and recorded".toList
           details := some (.jobj [("result".toList, .jstr p.result)]) },
         { st with bc := recordAndSeal e tx ts st.bc })

/-- One transaction passes the signature sweep of verify_all_signatures:
commitment transactions are skipped; own transactions must verify under
the own key; transactions under the stored opponent id must verify under
the opponent key when one is stored; every other transaction is not
examined at all. -/
def txSigOk (e : Env) (st : ProtoSt) (tx : Tx) : Bool :=
  if tx.move_type = .commitment then true
  else if tx.participant_id = some st.myId then
    e.verify (e.jdump tx.data) tx.signature st.myPub
  else if tx.participant_id = st.oppId then
    match st.oppPub with
    | some k => e.verify (e.jdump tx.data) tx.signature k
    | none => true
  else true

/-- The body of the verify_all_signatures loop on one transaction at
position (bn, tn): the entries it appends to invalid_txs. -/
def scanOne (e : Env) (st : ProtoSt) (bn tn : Nat) (tx : Tx) : List (Nat × Nat × Str) :=
  if tx.move_type = .commitment then []
  else if tx.participant_id = some st.myId then
    if e.verify (e.jdump tx.data) tx.signature st.myPub then []
    else [(bn, tn, "my".toList)]
  else if tx.participant_id = st.oppId then
    match st.oppPub with
    | some k =>
      if e.verify (e.jdump tx.data) tx.signature k then []
      else [(bn, tn, "opponent".toList)]
    | none => []
  else []

/-- The inner loop of verify_all_signatures over one block, carrying the
transaction index tn. -/
def scanTxs (e : Env) (st : ProtoSt) (bn : Nat) : Nat → List Tx → List (Nat × Nat × Str)
  | _, [] => []
  | tn, tx :: rest => scanOne e st bn tn tx ++ scanTxs e st bn (tn + 1) rest

/-- The outer loop of verify_all_signatures over the chain, carrying the
block index bn. -/
def scanChain (e : Env) (st : ProtoSt) : Nat → List BlockRec → List (Nat × Nat × Str)
  | _, [] => []
  | bn, b :: rest => scanTxs e st bn 0 b.transactions ++ scanChain e st (bn + 1) rest

/-- Json encoding of the invalid transaction list stored under the
details key of the failure result. -/
def invalidTxsJson (l : List (Nat × Nat × Str)) : Json :=
  .jobj
    [("invalid_transactions".toList,
      .jarr (l.map fun t => .jarr [.jint t.1, .jint t.2.1, .jstr t.2.2]))]

/-- ZeroTrustProtocol.verify_all_signatures (protocol.py lines 324-365). -/
def verifyAllSignatures (e : Env) (st : ProtoSt) : VerificationResultR :=
  let invalid := scanChain e st 0 st.bc.chain
  if invalid.isEmpty then
    { valid := true, reason := "All signatures valid".toList }
  else
    { valid := false
      reason := "Found ".toList ++ natDigits invalid.length ++ " invalid signatures".toList
      details := some (invalidTxsJson invalid) }

/-! ## Concrete instances used to evaluate the model on closed inputs

The environment structures carry the external crypto primitives as
parameters, so closed evaluations pick concrete instances; the theorems
about the embedding quantify over the parameters wherever the code does
not fix them. -/

/-- A byte level hash usable in closed evaluations: one byte recording the
input length. -/
def hbLen : List Nat → List Nat := fun l => [l.length % 256]

/-- An environment whose signature check accepts everything. -/
def envX : Env :=
  { shaHex := fun _ => []
    serTxs := fun _ => []
    tsStr := fun _ => []
    jdump := fun _ => []
    sign := fun _ => []
    verify := fun _ _ _ => true
    pubHex := fun s => s }

/-- An environment whose signature check rejects everything. -/
def envF : Env := { envX with verify := fun _ _ _ => false }

/-- An environment accepting exactly the signature string ok. -/
def envW : Env := { envX with verify := fun _ sig _ => sig == "ok".toList }

/-- A protocol state with the opponent commitment set. -/
def stOppSet : ProtoSt :=
  { myId := "a".toList
    myPub := "pk".toList
    oppId := some "b".toList
    oppPub := some "opk".toList
    oppCommitment := none
    bc := initChain envX 0
    protocolActive := true
    myActions := 0
    oppActions := 0 }

/-- The honest proof of the one cell commitment with empty seed, grid size
one and no marked position. -/
def proofX : MerkleProof :=
  { position := (0, 0)
    has_ship := false
    result := "miss".toList
    leaf_data := ":0:0:False".toList
    merkle_path := [] }

/-- A malformed proof whose leaf preimage has four fields but a non
numeric coordinate field. -/
def badProof : MerkleProof :=
  { position := (0, 0)
    has_ship := true
    result := "hit".toList
    leaf_data := "x:a:0:True".toList
    merkle_path := [] }

/-- A non commitment transaction carrying an empty signature. -/
def txX : Tx :=
  { move_type := .action
    participant_id := none
    data := .jnull
    timestamp := 0
    signature := [] }

/-- A ledger state with one pending transaction. -/
def stPend : ChainSt := { chain := (initChain envX 0).chain, pending := [txX] }

/-- A my-id transaction with an accepted signature, for envW. -/
def txMineW : Tx :=
  { move_type := .action
    participant_id := some "a".toList
    data := .jnull
    timestamp := 0
    signature := "ok".toList }

/-- An opponent-id transaction with an accepted signature, for envW. -/
def txOppW : Tx :=
  { move_type := .action
    participant_id := some "b".toList
    data := .jnull
    timestamp := 0
    signature := "ok".toList }

/-- A transaction recorded under a third participant id whose signature no
verifier accepts. -/
def txForeignW : Tx :=
  { move_type := .action
    participant_id := some "zz".toList
    data := .jnull
    timestamp := 0
    signature := "bad".toList }

/-- A protocol state whose ledger holds my, opponent and foreign
transactions in one sealed block. -/
def stW : ProtoSt :=
  { stOppSet with
    bc :=
      { chain :=
          (initChain envX 0).chain ++
            [{ prev_hash := []
               transactions := [txMineW, txOppW, txForeignW]
               block_number := 1
               timestamp := 0
               hash := [] }]
        pending := [] } }

/-- An identity environment with constant primitives, for closed
evaluation of the derivation. -/
def idEnvX : IdEnv :=
  { Hb := fun _ => List.replicate 32 0
    privOf := fun _ => "priv".toList
    pubOf := fun _ => "pub".toList
    pubBytes := fun _ => [] }

end Battleship

namespace Battleship

/-! ## Ledger lemmas and claims C5, C6, C7 -/

theorem chainOkFrom_snoc (e : Env) :
    ∀ (rest : List BlockRec) (prev b : BlockRec),
      chainOkFrom e prev (rest ++ [b]) =
        (chainOkFrom e prev rest &&
          (b.prev_hash == (rest.getLastD prev).hash) &&
          (b.hash == calcBlockHash e b.prev_hash b.transactions b.block_number b.timestamp))
  | [], prev, b => by
    simp only [List.nil_append, chainOkFrom, List.getLastD, Bool.and_true, Bool.true_and]
  | r :: rs, prev, b => by
    have ih := chainOkFrom_snoc e rs r b
    simp only [List.cons_append, chainOkFrom, List.append_eq, ih, List.getLastD_cons,
      Bool.and_assoc]

theorem lastHash_eq (st : ChainSt) (c : BlockRec) (rest : List BlockRec)
    (h : st.chain = c :: rest) : lastHash st = (rest.getLastD c).hash := by
  unfold lastHash
  rw [h]
  have : (c :: rest).getLast? = some (rest.getLastD c) := by
    rw [List.getLast?_cons, List.getLastD_eq_getLast?]
  rw [this]

theorem applyChainOp_preserves (e : Env) (st : ChainSt) (op : ChainOp)
    (h1 : st.chain ≠ []) (h2 : verifyChain e st = true) :
    (applyChainOp e st op).chain ≠ [] ∧ verifyChain e (applyChainOp e st op) = true := by
  cases op with
  | addOp tx => exact ⟨h1, h2⟩
  | mineOp ts =>
    simp only [applyChainOp, mineBlock]
    by_cases hp : st.pending.isEmpty
    · simp [hp, h1, h2]
    · simp only [hp, Bool.false_eq_true, if_false]
      obtain ⟨c, rest, hc⟩ : ∃ c rest, st.chain = c :: rest := by
        cases hch : st.chain with
        | nil => exact absurd hch h1
        | cons c rest => exact ⟨c, rest, rfl⟩
      constructor
      · simp [hc]
      · have hv : chainOkFrom e c rest = true := by
          have := h2
          unfold verifyChain at this
          rwa [hc] at this
        unfold verifyChain
        simp only [hc, List.cons_append]
        rw [chainOkFrom_snoc]
        have hlast := lastHash_eq st c rest hc
        simp [hv, mkBlock, hlast]

/-- C5.  Every ledger state reachable from the freshly constructed ledger
by any finite sequence of add_transaction and mine_block operations passes
verify_chain: every prev hash matches the previous block hash and every
stored block hash matches its recomputation. -/
theorem c5_reachable_chain_verifies (e : Env) (ts0 : Nat) (ops : List ChainOp) :
    verifyChain e (ops.foldl (applyChainOp e) (initChain e ts0)) = true := by
  suffices h : ∀ (l : List ChainOp) (st : ChainSt), st.chain ≠ [] → verifyChain e st = true →
      verifyChain e (l.foldl (applyChainOp e) st) = true by
    exact h ops (initChain e ts0) (by simp [initChain]) (by rfl)
  intro l
  induction l with
  | nil => intro st h1 h2; exact h2
  | cons op rest ih =>
    intro st h1 h2
    have ⟨h1x, h2x⟩ := applyChainOp_preserves e st op h1 h2
    exact ih _ h1x h2x

/-- C6.  mine_block (the seal operation) is a no-op returning none on an
empty pending buffer; otherwise it appends exactly one block carrying the
whole pending buffer, clears the buffer and returns that block. -/
theorem c6_seal_block (e : Env) (st : ChainSt) (ts : Nat) :
    (st.pending.isEmpty = true → mineBlock e ts st = (none, st)) ∧
    (st.pending.isEmpty = false →
      mineBlock e ts st =
        (some (mkBlock e (lastHash st) st.pending st.chain.length ts),
          { chain := st.chain ++ [mkBlock e (lastHash st) st.pending st.chain.length ts]
            pending := [] })) ∧
    (mkBlock e (lastHash st) st.pending st.chain.length ts).transactions = st.pending := by
  refine ⟨fun h => ?_, fun h => ?_, rfl⟩
  · simp [mineBlock, h]
  · simp [mineBlock, h]

theorem c6_seal_block_witness :
    mineBlock envX 0 (initChain envX 0) = (none, initChain envX 0) ∧
      (mineBlock envX 0 stPend).2.pending = [] ∧
      (mineBlock envX 0 stPend).2.chain.length = 2 := by
  refine ⟨(c6_seal_block envX (initChain envX 0) 0).1 rfl, ?_, ?_⟩
  · rw [(c6_seal_block envX stPend 0).2.1 rfl]
  · rw [(c6_seal_block envX stPend 0).2.1 rfl]
    rfl

/-- C7 counterexample.  add_transaction accepts an action transaction with
an empty signature: it returns success and pushes the transaction to the
pending buffer, so no kind specific field validation happens. -/
theorem c7_counterexample :
    (addTransaction txX (initChain envX 0)).1 = true ∧
      (addTransaction txX (initChain envX 0)).2.pending = [txX] ∧
      txX.signature = [] ∧ txX.move_type ≠ MoveTypeT.commitment :=
  ⟨rfl, rfl, rfl, by simp [txX]⟩

/-- C7 amended.  add_transaction performs no validation at all: for every
transaction and every ledger state it unconditionally appends the
transaction to the pending buffer, returns success, and leaves the sealed
chain untouched (it never seals). -/
theorem c7_append_transaction_no_validation (st : ChainSt) (tx : Tx) :
    addTransaction tx st = (true, { st with pending := st.pending ++ [tx] }) ∧
      (addTransaction tx st).2.chain = st.chain :=
  ⟨rfl, rfl⟩

/-! ## Orchestrator claims C9, C2, C10 -/

/-- C9 counterexample.  On a concrete protocol state,
get_my_commitment returns a dict whose key set is exactly
participant_id and public_key: the commitment_root key claimed by the
spec is absent at the orchestrator level. -/
theorem c9_counterexample :
    (getMyCommitment envX stOppSet).map Prod.fst =
        ["participant_id".toList, "public_key".toList] ∧
      "commitment_root".toList ∉ (getMyCommitment envX stOppSet).map Prod.fst := by
  exact ⟨rfl, by decide⟩

/-- C9 amended.  The get_my_commitment method of the orchestrator exposes exactly the
participant_id and public_key fields; the commitment root is added by the
get_commitment_data method of the game layer, which exposes exactly
participant_id, public_key and commitment_root — and neither exposes any
underlying committed fact. -/
theorem c9_commitment_fields (e : Env) (st : ProtoSt) (gridRoot : Str) :
    getMyCommitment e st =
        [("participant_id".toList, st.myId), ("public_key".toList, e.pubHex st.myPub)] ∧
      getCommitmentData e st gridRoot =
        [("participant_id".toList, st.myId), ("public_key".toList, e.pubHex st.myPub),
          ("commitment_root".toList, gridRoot)] :=
  ⟨rfl, rfl⟩

/-- C2.  verify_opponent_action contains no turn-order check at all: on a
state with the opponent key stored, any action whose signature the
verifier accepts is recorded and answered with valid, for every payload
and every turn situation; no TurnViolation is ever produced.  This
contradicts the spec and the enforcement test shipped in the repository, which
expect an out-of-turn action to fail with a turn violation. -/
theorem c2_no_turn_check (action : Json) (sig : Str) (txTs tsB : Nat) :
    (verifyOpponentAction envX stOppSet action sig txTs tsB).1 =
        { valid := true, reason := "Opponent action verified and recorded".toList } ∧
      (verifyOpponentAction envX stOppSet action sig txTs tsB).2.oppActions = 1 :=
  ⟨rfl, rfl⟩

theorem scanOne_nil_iff (e : Env) (st : ProtoSt) (bn tn : Nat) (tx : Tx) :
    scanOne e st bn tn tx = [] ↔ txSigOk e st tx = true := by
  unfold scanOne txSigOk
  by_cases hc : tx.move_type = .commitment
  · simp [hc]
  · simp only [hc, if_false]
    by_cases hm : tx.participant_id = some st.myId
    · simp only [hm, if_true]
      cases e.verify (e.jdump tx.data) tx.signature st.myPub <;> simp
    · simp only [hm, if_false]
      by_cases ho : tx.participant_id = st.oppId
      · simp only [ho, if_true]
        cases st.oppPub with
        | none => simp
        | some k => cases e.verify (e.jdump tx.data) tx.signature k <;> simp
      · simp [ho]

theorem scanTxs_nil_iff (e : Env) (st : ProtoSt) (bn : Nat) :
    ∀ (tn : Nat) (txs : List Tx),
      scanTxs e st bn tn txs = [] ↔ txs.all (txSigOk e st) = true
  | _, [] => by simp [scanTxs]
  | tn, tx :: rest => by
    have ih := scanTxs_nil_iff e st bn (tn + 1) rest
    simp only [scanTxs, List.all_cons, Bool.and_eq_true, List.append_eq_nil, ih,
      scanOne_nil_iff]

theorem scanChain_nil_iff (e : Env) (st : ProtoSt) :
    ∀ (bn : Nat) (blocks : List BlockRec),
      scanChain e st bn blocks = [] ↔
        blocks.all (fun b => b.transactions.all (txSigOk e st)) = true
  | _, [] => by simp [scanChain]
  | bn, b :: rest => by
    have ih := scanChain_nil_iff e st (bn + 1) rest
    simp only [scanChain, List.append_eq_nil, List.all_cons, Bool.and_eq_true, ih,
      scanTxs_nil_iff]

/-- C10.  verify_all_signatures reports valid exactly when every
non-commitment transaction recorded under the own id of the caller verifies
under the own key and every one recorded under the stored opponent id
verifies under the opponent key when that key is stored; a transaction
under any other participant id — and any opponent transaction while no
opponent key is stored — is never examined, whatever its signature. -/
theorem c10_signature_sweep_scope (e : Env) (st : ProtoSt) :
    (verifyAllSignatures e st).valid = true ↔
      st.bc.chain.all (fun b => b.transactions.all (txSigOk e st)) = true := by
  unfold verifyAllSignatures
  by_cases h : scanChain e st 0 st.bc.chain = []
  · simp only [h, List.isEmpty_nil, if_true]
    simp [← scanChain_nil_iff e st 0 st.bc.chain, h]
  · have hne : (scanChain e st 0 st.bc.chain).isEmpty = false := by
      cases hs : scanChain e st 0 st.bc.chain with
      | nil => exact absurd hs h
      | cons a l => rfl
    simp only [hne, Bool.false_eq_true, if_false]
    simp [← scanChain_nil_iff e st 0 st.bc.chain, h]

theorem c10_signature_sweep_scope_witness :
    (verifyAllSignatures envW stW).valid = true ∧
      (stW.bc.chain.getD 1 (mkBlock envX [] [] 0 0)).transactions =
        [txMineW, txOppW, txForeignW] ∧
      envW.verify (envW.jdump txForeignW.data) txForeignW.signature "anykey".toList = false :=
  ⟨(c10_signature_sweep_scope envW stW).mpr (by decide), rfl, by decide⟩

/-! ## String utility lemmas -/

theorem digitChar_toNat : ∀ n < 10, (digitChar n).toNat = 48 + n := by decide

theorem hexDigitVal_hexDigitChar : ∀ n < 16, hexDigitVal (hexDigitChar n) = some n := by
  decide

theorem hexDigitChar_ne_colon : ∀ n < 16, hexDigitChar n ≠ ':' := by decide

theorem natDigitsF_congr :
    ∀ (f1 f2 n : Nat), n < f1 → n < f2 → natDigitsF f1 n = natDigitsF f2 n
  | 0, _, n, h1, _ => absurd h1 (Nat.not_lt_zero n)
  | _ + 1, 0, n, _, h2 => absurd h2 (Nat.not_lt_zero n)
  | f1 + 1, f2 + 1, n, h1, h2 => by
    unfold natDigitsF
    by_cases h : n < 10
    · simp [h]
    · simp only [h, if_false]
      rw [natDigitsF_congr f1 f2 (n / 10) (by omega) (by omega)]

theorem natDigits_shift (n : Nat) (h : 10 ≤ n) :
    natDigits n = natDigits (n / 10) ++ [digitChar (n % 10)] := by
  unfold natDigits
  conv_lhs => unfold natDigitsF
  simp only [show ¬n < 10 by omega, if_false]
  rw [natDigitsF_congr n (n / 10 + 1) (n / 10) (by omega) (by omega)]

theorem parseNatCore_snoc (s : Str) (c : Char) :
    parseNatCore (s ++ [c]) = parseNatCore s * 10 + (c.toNat - 48) := by
  unfold parseNatCore
  rw [List.foldl_append]
  rfl

theorem natDigits_spec :
    ∀ n : Nat, natDigits n ≠ [] ∧ isDigits (natDigits n) = true ∧
      parseNatCore (natDigits n) = n := by
  intro n
  induction n using Nat.strong_induction_on with
  | _ n ih =>
    by_cases h : n < 10
    · have hnd : natDigits n = [digitChar n] := by
        unfold natDigits natDigitsF
        simp [h]
      rw [hnd]
      refine ⟨by simp, ?_, ?_⟩
      · simp [isDigits, List.all_cons, digitChar_toNat n h]
        omega
      · simp [parseNatCore, digitChar_toNat n h]
    · have hsh := natDigits_shift n (by omega)
      obtain ⟨ih1, ih2, ih3⟩ := ih (n / 10) (by omega)
      rw [hsh]
      refine ⟨by simp, ?_, ?_⟩
      · simp only [isDigits, List.all_append, List.all_cons, List.all_nil, Bool.and_true,
          Bool.and_eq_true]
        refine ⟨ih2, ?_⟩
        simp [digitChar_toNat (n % 10) (by omega)]
        omega
      · rw [parseNatCore_snoc, ih3, digitChar_toNat (n % 10) (by omega)]
        omega

theorem isDigits_colon_not_mem (s : Str) (h : isDigits s = true) : ':' ∉ s := by
  intro hm
  have := List.all_eq_true.mp h ':' hm
  simp at this

theorem parseInt_natDigits (n : Nat) : parseInt (natDigits n) = some (n : Int) := by
  obtain ⟨hne, hdig, hval⟩ := natDigits_spec n
  cases hnd : natDigits n with
  | nil => exact absurd hnd hne
  | cons c rest =>
    rw [hnd] at hdig hval
    have hc : 48 ≤ c.toNat ∧ c.toNat ≤ 57 := by
      have := List.all_eq_true.mp hdig c (List.mem_cons_self c rest)
      simpa using this
    have h1 : ¬(c = '-') := by
      intro h
      subst h
      simp at hc
    have h2 : ¬(c = '+') := by
      intro h
      subst h
      simp at hc
    unfold parseInt
    simp only [if_neg h1, if_neg h2, hdig, if_true, hval]

theorem hexEncode_nil : hexEncode [] = [] := rfl

theorem hexEncode_cons (b : Nat) (bs : List Nat) :
    hexEncode (b :: bs) = hexDigitChar (b / 16) :: hexDigitChar (b % 16) :: hexEncode bs := by
  simp [hexEncode, byteHex]

theorem hexEncode_length (bs : List Nat) : (hexEncode bs).length = 2 * bs.length := by
  induction bs with
  | nil => rfl
  | cons b r ih =>
    rw [hexEncode_cons]
    simp [ih]
    omega

theorem hexDecode_hexEncode (bs : List Nat) (h : ∀ b ∈ bs, b < 256) :
    hexDecode (hexEncode bs) = some bs := by
  induction bs with
  | nil => rfl
  | cons b r ih =>
    have hb : b < 256 := h b (List.mem_cons_self b r)
    rw [hexEncode_cons]
    unfold hexDecode
    rw [hexDigitVal_hexDigitChar (b / 16) (by omega),
      hexDigitVal_hexDigitChar (b % 16) (by omega),
      ih (fun x hx => h x (List.mem_cons_of_mem b hx))]
    have : 16 * (b / 16) + b % 16 = b := by omega
    simp [this]

theorem mem_hexEncode_hex (bs : List Nat) (h : ∀ b ∈ bs, b < 256) :
    ∀ c ∈ hexEncode bs, (hexDigitVal c).isSome = true := by
  induction bs with
  | nil => intro c hc; simp [hexEncode] at hc
  | cons b r ih =>
    intro c hc
    have hb : b < 256 := h b (List.mem_cons_self b r)
    rw [hexEncode_cons] at hc
    rcases List.mem_cons.mp hc with rfl | hc2
    · rw [hexDigitVal_hexDigitChar (b / 16) (by omega)]; rfl
    · rcases List.mem_cons.mp hc2 with rfl | hc3
      · rw [hexDigitVal_hexDigitChar (b % 16) (by omega)]; rfl
      · exact ih (fun x hx => h x (List.mem_cons_of_mem b hx)) c hc3

theorem colon_not_mem_hexEncode (bs : List Nat) (h : ∀ b ∈ bs, b < 256) :
    ':' ∉ hexEncode bs := by
  intro hm
  have := mem_hexEncode_hex bs h ':' hm
  simp [hexDigitVal] at this

theorem splitOnChar_no_sep (c : Char) :
    ∀ s : Str, c ∉ s → splitOnChar c s = [s]
  | [], _ => rfl
  | a :: s, h => by
    have ha : ¬(a = c) := fun e => h (e ▸ List.mem_cons_self a s)
    have ih := splitOnChar_no_sep c s (fun hm => h (List.mem_cons_of_mem a hm))
    show (if a = c then _ else _) = _
    rw [if_neg ha]
    have : splitOnChar c s = [s] := ih
    rw [show s.foldr _ [[]] = splitOnChar c s from rfl, this]

theorem splitOnChar_append_sep (c : Char) :
    ∀ (s1 s2 : Str), c ∉ s1 →
      splitOnChar c (s1 ++ c :: s2) = s1 :: splitOnChar c s2
  | [], s2, _ => by
    show (if c = c then _ else _) = _
    rw [if_pos rfl]
    rfl
  | a :: s1, s2, h => by
    have ha : ¬(a = c) := fun e => h (e ▸ List.mem_cons_self a s1)
    have ih := splitOnChar_append_sep c s1 s2 (fun hm => h (List.mem_cons_of_mem a hm))
    show (if a = c then _ else _) = _
    rw [if_neg ha]
    show (match splitOnChar c (s1 ++ c :: s2) with
          | [] => [[a]]
          | h :: t => (a :: h) :: t) = (a :: s1) :: splitOnChar c s2
    rw [ih]

/-! ## Identity lemmas and claim C8 -/

/-- C8.  Identity derivation is the stated pure function: the private key
is the hash of seed followed by the canonical (sorted, JSON) serialization
of the committed positions, interpreted as a secp256k1 scalar; the
participant id is the hash of the public key bytes truncated to a fixed
16 character hex string; and equal seed plus equal committed data give the
identical identity triple. -/
theorem c8_identity_derivation (e : IdEnv)
    (hH : ∀ bs : List Nat, (e.Hb bs).length = 32 ∧ ∀ b ∈ e.Hb bs, b < 256)
    (seed : List Nat) (pos : List (Int × Int)) :
    (mkCryptoIdentity e seed pos).private_key =
        e.privOf (e.Hb (seed ++ strEncode (dumpsPosList (sortPos pos)))) ∧
      (mkCryptoIdentity e seed pos).public_key =
        e.pubOf (mkCryptoIdentity e seed pos).private_key ∧
      (mkCryptoIdentity e seed pos).player_id =
        (hexEncode (e.Hb (e.pubBytes (mkCryptoIdentity e seed pos).public_key))).take 16 ∧
      (mkCryptoIdentity e seed pos).player_id.length = 16 ∧
      (mkCryptoIdentity e seed pos).player_id.all
        (fun c => (hexDigitVal c).isSome) = true ∧
      ∀ seed2 pos2, seed2 = seed → pos2 = pos →
        mkCryptoIdentity e seed2 pos2 = mkCryptoIdentity e seed pos := by
  obtain ⟨hlen, hbytes⟩ := hH (e.pubBytes (e.pubOf (e.privOf
    (e.Hb (seed ++ strEncode (dumpsPosList (sortPos pos)))))))
  refine ⟨rfl, rfl, rfl, ?_, ?_, ?_⟩
  · show ((hexEncode _).take 16).length = 16
    rw [List.length_take, hexEncode_length, hlen]
    omega
  · show ((hexEncode _).take 16).all _ = true
    rw [List.all_eq_true]
    intro c hc
    exact mem_hexEncode_hex _ hbytes c (List.take_subset 16 _ hc)
  · intro seed2 pos2 h1 h2
    rw [h1, h2]

theorem c8_identity_derivation_witness :
    (mkCryptoIdentity idEnvX [] []).player_id.length = 16 ∧
      (mkCryptoIdentity idEnvX [] []).private_key =
        idEnvX.privOf (idEnvX.Hb ([] ++ strEncode (dumpsPosList (sortPos [])))) := by
  have h := c8_identity_derivation idEnvX
    (fun bs => ⟨by simp [idEnvX], fun b hb => by
      simp [idEnvX, List.mem_replicate] at hb
      omega⟩) [] []
  exact ⟨h.2.2.2.1, h.1⟩

/-! ## Merkle tree lemmas -/

theorem getD_mem_of_lt {α : Type} (l : List α) (i : Nat) (d : α) (h : i < l.length) :
    l.getD i d ∈ l := by
  rw [List.getD_eq_getElem l d h]
  exact List.getElem_mem h

theorem pairUp_length (Hb : List Nat → List Nat) :
    ∀ l : List (List Nat), (pairUp Hb l).length = (l.length + 1) / 2
  | [] => by simp [pairUp]
  | [_] => by simp [pairUp]
  | _ :: _ :: rest => by
    simp only [pairUp, List.length_cons, pairUp_length Hb rest]
    omega

theorem pairUp_ne_nil (Hb : List Nat → List Nat) :
    ∀ l : List (List Nat), l ≠ [] → pairUp Hb l ≠ []
  | [], h => absurd rfl h
  | [_], _ => by simp [pairUp]
  | _ :: _ :: _, _ => by simp [pairUp]

theorem pairUp_mem (Hb : List Nat → List Nat) :
    ∀ (l : List (List Nat)) (x : List Nat), x ∈ pairUp Hb l → ∃ y, x = Hb y
  | [], _, h => absurd h (by simp [pairUp])
  | [a], x, h => by
    simp only [pairUp, List.mem_singleton] at h
    exact ⟨a ++ a, h⟩
  | a :: b :: rest, x, h => by
    rcases List.mem_cons.mp h with rfl | h2
    · exact ⟨a ++ b, rfl⟩
    · exact pairUp_mem Hb rest x h2

theorem pairUp_getD (Hb : List Nat → List Nat) :
    ∀ (l : List (List Nat)) (i : Nat), i < l.length →
      (pairUp Hb l).getD (i / 2) [] =
        if i % 2 = 0 then
          (if i + 1 < l.length then Hb (l.getD i [] ++ l.getD (i + 1) [])
           else Hb (l.getD i [] ++ l.getD i []))
        else Hb (l.getD (i - 1) [] ++ l.getD i [])
  | [], i, h => absurd h (by simp)
  | [a], i, h => by
    have : i = 0 := by simpa using h
    subst this
    simp [pairUp]
  | a :: b :: rest, 0, h => by
    have h1 : 0 + 1 < (a :: b :: rest).length := by simp
    simp [pairUp, h1]
  | a :: b :: rest, 1, h => by
    simp [pairUp]
  | a :: b :: rest, i + 2, h => by
      have hi : i < rest.length := by
        simp only [List.length_cons] at h
        omega
      have ih := pairUp_getD Hb rest i hi
      have hdiv : (i + 2) / 2 = i / 2 + 1 := by omega
      have hmod : (i + 2) % 2 = i % 2 := by omega
      rw [hdiv]
      simp only [pairUp, List.getD_cons_succ, ih, hmod]
      by_cases hpar : i % 2 = 0
      · simp only [hpar, if_true]
        have hlen : i + 2 + 1 < (a :: b :: rest).length ↔ i + 1 < rest.length := by
          simp only [List.length_cons]
          omega
        by_cases hnext : i + 1 < rest.length
        · rw [if_pos hnext, if_pos (hlen.mpr hnext)]
        · rw [if_neg hnext, if_neg (fun hx => hnext (hlen.mp hx))]
      · simp only [hpar, if_false]
        have hpos : 1 ≤ i := by omega
        have e1 : i + 2 - 1 = (i - 1) + 2 := by omega
        rw [e1]
        simp [List.getD_cons_succ]

theorem treeFoldF_ne_nil (Hb : List Nat → List Nat) :
    ∀ (fuel : Nat) (l : List (List Nat)), l ≠ [] → treeFoldF Hb fuel l ≠ []
  | 0, l, h => h
  | fuel + 1, l, h => by
    unfold treeFoldF
    by_cases hl : l.length ≤ 1
    · simpa [hl] using h
    · simp only [hl, if_false]
      exact treeFoldF_ne_nil Hb fuel (pairUp Hb l) (pairUp_ne_nil Hb l h)

theorem treeFoldF_mem (Hb : List Nat → List Nat) :
    ∀ (fuel : Nat) (l : List (List Nat)) (x : List Nat),
      x ∈ treeFoldF Hb fuel l → x ∈ l ∨ ∃ y, x = Hb y
  | 0, _, _, h => Or.inl h
  | fuel + 1, l, x, h => by
    unfold treeFoldF at h
    by_cases hl : l.length ≤ 1
    · rw [if_pos hl] at h
      exact Or.inl h
    · rw [if_neg hl] at h
      rcases treeFoldF_mem Hb fuel (pairUp Hb l) x h with h2 | h2
      · exact Or.inr (pairUp_mem Hb l x h2)
      · exact Or.inr h2

theorem foldPath_cons (Hb : List Nat → List Nat) (leaf s : List Nat) (il : Bool)
    (rest : List (List Nat × Bool)) :
    foldPath Hb leaf ((s, il) :: rest) =
      foldPath Hb (if il then Hb (s ++ leaf) else Hb (leaf ++ s)) rest := rfl

/-- The central completeness fact of the tree: folding a leaf along the
sibling path collected by get_proof reproduces the root computed by
_build_tree, at every level, for any hash function. -/
theorem foldPath_getProofF (Hb : List Nat → List Nat) :
    ∀ (fuel : Nat) (level : List (List Nat)) (i : Nat),
      level.length ≤ fuel → 1 ≤ level.length → i < level.length →
      foldPath Hb (level.getD i []) (getProofF Hb fuel level i) =
        (treeFoldF Hb fuel level).getD 0 []
  | 0, level, i, hf, h1, _ => by omega
  | fuel + 1, level, i, hf, h1, hi => by
    unfold getProofF treeFoldF
    by_cases hl : level.length ≤ 1
    · have : i = 0 := by omega
      subst this
      simp [hl, foldPath]
    · simp only [hl, if_false]
      have hlen2 : 2 ≤ level.length := by omega
      have hfold :
          foldPath Hb (level.getD i [])
              ((if i % 2 = 0 then
                  if i + 1 < level.length then (level.getD (i + 1) [], false)
                  else (level.getD i [], false)
                else (level.getD (i - 1) [], true)) ::
                getProofF Hb fuel (pairUp Hb level) (i / 2)) =
            foldPath Hb ((pairUp Hb level).getD (i / 2) [])
              (getProofF Hb fuel (pairUp Hb level) (i / 2)) := by
        rw [pairUp_getD Hb level i hi]
        by_cases hpar : i % 2 = 0
        · by_cases hnext : i + 1 < level.length
          · simp [hpar, hnext, foldPath_cons]
          · simp [hpar, hnext, foldPath_cons]
        · simp [hpar, foldPath_cons]
      rw [hfold]
      exact foldPath_getProofF Hb fuel (pairUp Hb level) (i / 2)
        (by rw [pairUp_length]; omega)
        (by rw [pairUp_length]; omega)
        (by rw [pairUp_length]; omega)

/-- Every sibling recorded by get_proof is an element of some level of the
climb, hence a leaf or a hash output; with byte valued leaves and hashes
its bytes stay below 256. -/
theorem getProofF_sib (Hb : List Nat → List Nat)
    (hB : ∀ inp, ∀ b ∈ Hb inp, b < 256) :
    ∀ (fuel : Nat) (level : List (List Nat)) (i : Nat),
      (∀ bs ∈ level, ∀ b ∈ bs, b < 256) → i < level.length →
      ∀ pr ∈ getProofF Hb fuel level i, ∀ b ∈ pr.1, b < 256
  | 0, _, _, _, _, pr, hpr => absurd hpr (by simp [getProofF])
  | fuel + 1, level, i, hlev, hi, pr, hpr => by
    unfold getProofF at hpr
    by_cases hl : level.length ≤ 1
    · rw [if_pos hl] at hpr
      exact absurd hpr (by simp)
    · rw [if_neg hl] at hpr
      rcases List.mem_cons.mp hpr with rfl | h2
      · by_cases hpar : i % 2 = 0
        · by_cases hnext : i + 1 < level.length
          · simp only [hpar, hnext, if_true]
            exact hlev _ (getD_mem_of_lt level (i + 1) [] hnext)
          · simp only [hpar, hnext, if_true, if_false]
            exact hlev _ (getD_mem_of_lt level i [] hi)
        · simp only [hpar, if_false]
          exact hlev _ (getD_mem_of_lt level (i - 1) [] (by omega))
      · exact getProofF_sib Hb hB fuel (pairUp Hb level) (i / 2)
          (fun bs hbs => by
            obtain ⟨y, rfl⟩ := pairUp_mem Hb level bs hbs
            exact hB y)
          (by rw [pairUp_length]; omega) pr h2

theorem headD_eq_getD {α : Type} (l : List α) (d d2 : α) (h : l ≠ []) :
    l.headD d = l.getD 0 d2 := by
  cases l with
  | nil => exact absurd rfl h
  | cons a t => rfl

/-! ## Grid commitment lemmas -/

theorem flatMap_fixed_length {α β : Type} :
    ∀ (xs : List β) (f : β → List α) (k : Nat),
      (∀ x ∈ xs, (f x).length = k) → (xs.flatMap f).length = xs.length * k
  | [], _, _, _ => by simp
  | x :: xs, f, k, hf => by
    rw [List.flatMap_cons, List.length_append, hf x (List.mem_cons_self x xs),
      flatMap_fixed_length xs f k (fun z hz => hf z (List.mem_cons_of_mem x hz))]
    simp only [List.length_cons]
    ring

theorem flatMap_fixed_getD {α β : Type} :
    ∀ (xs : List β) (f : β → List α) (k : Nat),
      (∀ x ∈ xs, (f x).length = k) →
      ∀ (i j : Nat), i < xs.length → j < k → ∀ (d : α) (db : β),
        (xs.flatMap f).getD (i * k + j) d = (f (xs.getD i db)).getD j d
  | [], _, _, _, i, _, hi, _, _, _ => absurd hi (by simp)
  | x :: xs, f, k, hf, 0, j, _, hj, d, db => by
    rw [List.flatMap_cons]
    rw [show 0 * k + j = j by omega]
    rw [List.getD_append _ _ d j (by rw [hf x (List.mem_cons_self x xs)]; exact hj)]
    rfl
  | x :: xs, f, k, hf, i + 1, j, hi, hj, d, db => by
    rw [List.flatMap_cons]
    have hx : (f x).length = k := hf x (List.mem_cons_self x xs)
    have harith : (i + 1) * k + j = k + (i * k + j) := by ring
    rw [harith]
    rw [List.getD_append_right _ _ d _ (by omega)]
    rw [show k + (i * k + j) - (f x).length = i * k + j by omega]
    rw [flatMap_fixed_getD xs f k (fun z hz => hf z (List.mem_cons_of_mem x hz)) i j
      (by simpa using hi) hj d db]
    rfl

theorem gridData_length (seed : List Nat) (gs : Nat) (pos : List (Int × Int)) :
    (gridData seed gs pos).length = gs * gs := by
  unfold gridData
  rw [flatMap_fixed_length (List.range gs) _ gs (fun x _ => by simp)]
  simp

theorem gridData_getD (seed : List Nat) (gs : Nat) (pos : List (Int × Int))
    (x y : Nat) (hx : x < gs) (hy : y < gs) :
    (gridData seed gs pos).getD (x * gs + y) [] =
      cellData seed x y (hasShipAt pos x y) := by
  unfold gridData
  rw [flatMap_fixed_getD (List.range gs) _ gs (fun z _ => by simp) x y
    (by simpa using hx) hy [] 0]
  have h1 : (List.range gs).getD x 0 = x := by
    rw [List.getD_eq_getElem _ _ (by simpa using hx)]
    simp
  rw [h1]
  rw [List.getD_eq_getElem _ _ (by simpa using hy)]
  simp

theorem gridLeaves_length (Hb : List Nat → List Nat) (seed : List Nat) (gs : Nat)
    (pos : List (Int × Int)) : (gridLeaves Hb seed gs pos).length = gs * gs := by
  unfold gridLeaves
  rw [List.length_map, gridData_length]

theorem gridLeaves_getD (Hb : List Nat → List Nat) (seed : List Nat) (gs : Nat)
    (pos : List (Int × Int)) (i : Nat) (hi : i < gs * gs) :
    (gridLeaves Hb seed gs pos).getD i [] =
      Hb (strEncode ((gridData seed gs pos).getD i [])) := by
  unfold gridLeaves
  rw [List.getD_eq_getElem _ _ (by rw [List.length_map, gridData_length]; exact hi)]
  rw [List.getElem_map]
  rw [List.getD_eq_getElem _ _ (by rw [gridData_length]; exact hi)]

theorem gridLeaves_bounded (Hb : List Nat → List Nat)
    (hB : ∀ inp, ∀ b ∈ Hb inp, b < 256) (seed : List Nat) (gs : Nat)
    (pos : List (Int × Int)) :
    ∀ bs ∈ gridLeaves Hb seed gs pos, ∀ b ∈ bs, b < 256 := by
  intro bs hbs
  obtain ⟨d, _, rfl⟩ := List.mem_map.mp hbs
  exact hB (strEncode d)

theorem splitOnChar_cellData (seed : List Nat) (hseed : ∀ b ∈ seed, b < 256)
    (x y : Nat) (hs : Bool) :
    splitOnChar ':' (cellData seed x y hs) =
      [hexEncode seed, natDigits x, natDigits y,
        if hs then "True".toList else "False".toList] := by
  unfold cellData
  simp only [List.cons_append, List.append_assoc]
  rw [splitOnChar_append_sep ':' (hexEncode seed) _ (colon_not_mem_hexEncode seed hseed)]
  rw [splitOnChar_append_sep ':' (natDigits x) _
    (isDigits_colon_not_mem _ (natDigits_spec x).2.1)]
  rw [splitOnChar_append_sep ':' (natDigits y) _
    (isDigits_colon_not_mem _ (natDigits_spec y).2.1)]
  rw [splitOnChar_no_sep ':' _ (by cases hs <;> decide)]

theorem mapM_decode_path :
    ∀ (tuples : List (List Nat × Bool)),
      (∀ t ∈ tuples, ∀ b ∈ t.1, b < 256) →
      ((tuples.map fun t => PathStep.mk (hexEncode t.1) t.2).mapM
          fun st => (hexDecode st.hash).map fun b => (b, st.is_left)) = some tuples
  | [], _ => rfl
  | t :: rest, h => by
    rw [List.map_cons, List.mapM_cons]
    have h1 : hexDecode (PathStep.mk (hexEncode t.1) t.2).hash = some t.1 :=
      hexDecode_hexEncode t.1 (h t (List.mem_cons_self t rest))
    rw [h1, mapM_decode_path rest (fun z hz => h z (List.mem_cons_of_mem t hz))]
    rfl

theorem merkleRoot_bounded (Hb : List Nat → List Nat)
    (hB : ∀ inp, ∀ b ∈ Hb inp, b < 256) (seed : List Nat) (gs : Nat)
    (pos : List (Int × Int)) (hgs : 1 ≤ gs) :
    ∀ b ∈ merkleRoot Hb (gridLeaves Hb seed gs pos), b < 256 := by
  intro b hb
  have hne : gridLeaves Hb seed gs pos ≠ [] := by
    intro hnil
    have := gridLeaves_length Hb seed gs pos
    rw [hnil] at this
    simp at this
    omega
  have hfne : treeFold Hb (gridLeaves Hb seed gs pos) ≠ [] :=
    treeFoldF_ne_nil Hb _ _ hne
  unfold merkleRoot at hb
  rw [headD_eq_getD _ _ ([] : List Nat) hfne] at hb
  have hmem : (treeFold Hb (gridLeaves Hb seed gs pos)).getD 0 [] ∈
      treeFold Hb (gridLeaves Hb seed gs pos) := by
    apply getD_mem_of_lt
    cases hl : treeFold Hb (gridLeaves Hb seed gs pos) with
    | nil => exact absurd hl hfne
    | cons a t => simp
  rcases treeFoldF_mem Hb _ _ _ hmem with h2 | h2
  · exact gridLeaves_bounded Hb hB seed gs pos _ h2 b hb
  · obtain ⟨inp, he⟩ := h2
    rw [he] at hb
    exact hB inp b hb

/-! ## Claims C4, C3, C1 -/

/-- C4.  Proof completeness of the commitment scheme: for every marked
position set, every genuine byte seed, every grid size, every hash with
byte valued output, and every in-domain key, the proof generated for that
key verifies against the own root of the commitment. -/
theorem c4_proof_completeness (Hb : List Nat → List Nat)
    (hB : ∀ inp, ∀ b ∈ Hb inp, b < 256)
    (seed : List Nat) (hseed : ∀ b ∈ seed, b < 256)
    (gs : Nat) (pos : List (Int × Int)) (x y : Int)
    (hx0 : 0 ≤ x) (hx1 : x < (gs : Int)) (hy0 : 0 ≤ y) (hy1 : y < (gs : Int)) :
    ∃ p, generateProof Hb seed gs pos x y = .ok p ∧
      merkleVerifyProof Hb p (gridRootHex Hb seed gs pos) = .ok true := by
  have hxe : ((x.toNat : Int)) = x := by omega
  have hye : ((y.toNat : Int)) = y := by omega
  have hxlt : x.toNat < gs := by omega
  have hylt : y.toNat < gs := by omega
  have hgs : 1 ≤ gs := by omega
  have hidx : x.toNat * gs + y.toNat < gs * gs := by
    calc x.toNat * gs + y.toNat < x.toNat * gs + gs := by omega
      _ = (x.toNat + 1) * gs := by ring
      _ ≤ gs * gs := Nat.mul_le_mul (by omega) (le_refl gs)
  have hcond : ¬(x < 0 ∨ (gs : Int) ≤ x ∨ y < 0 ∨ (gs : Int) ≤ y) := by omega
  have hdec : (decide ((x, y) ∈ pos)) = hasShipAt pos x.toNat y.toNat := by
    simp only [hasShipAt, hxe, hye]
  have hlen : (gridLeaves Hb seed gs pos).length = gs * gs :=
    gridLeaves_length Hb seed gs pos
  have hgen : generateProof Hb seed gs pos x y = .ok
      { position := (x, y)
        has_ship := hasShipAt pos x.toNat y.toNat
        result := if hasShipAt pos x.toNat y.toNat then "hit".toList else "miss".toList
        leaf_data := cellData seed x.toNat y.toNat (hasShipAt pos x.toNat y.toNat)
        merkle_path :=
          (getProof Hb (gridLeaves Hb seed gs pos) (x.toNat * gs + y.toNat)).map
            fun t => { hash := hexEncode t.1, is_left := t.2 } } := by
    unfold generateProof
    rw [if_neg hcond]
    simp only [hdec, gridData_getD seed gs pos x.toNat y.toNat hxlt hylt]
  refine ⟨_, hgen, ?_⟩
  have hsplit := splitOnChar_cellData seed hseed x.toNat y.toNat
    (hasShipAt pos x.toNat y.toNat)
  have hgetProof : getProof Hb (gridLeaves Hb seed gs pos) (x.toNat * gs + y.toNat) =
      getProofF Hb (gridLeaves Hb seed gs pos).length (gridLeaves Hb seed gs pos)
        (x.toNat * gs + y.toNat) := by
    unfold getProof
    rw [if_neg (by omega)]
  have hsib : ∀ pr ∈ getProof Hb (gridLeaves Hb seed gs pos) (x.toNat * gs + y.toNat),
      ∀ b ∈ pr.1, b < 256 := by
    rw [hgetProof]
    exact getProofF_sib Hb hB _ _ _ (gridLeaves_bounded Hb hB seed gs pos) (by omega)
  have hmapM := mapM_decode_path
    (getProof Hb (gridLeaves Hb seed gs pos) (x.toNat * gs + y.toNat)) hsib
  have hrootdec : hexDecode (gridRootHex Hb seed gs pos) =
      some (merkleRoot Hb (gridLeaves Hb seed gs pos)) := by
    unfold gridRootHex
    exact hexDecode_hexEncode _ (merkleRoot_bounded Hb hB seed gs pos hgs)
  have hne : gridLeaves Hb seed gs pos ≠ [] := by
    intro hnil
    rw [hnil] at hlen
    simp at hlen
    omega
  have hfold : simpleVerifyProof Hb
      (cellData seed x.toNat y.toNat (hasShipAt pos x.toNat y.toNat))
      (getProof Hb (gridLeaves Hb seed gs pos) (x.toNat * gs + y.toNat))
      (merkleRoot Hb (gridLeaves Hb seed gs pos)) = true := by
    unfold simpleVerifyProof
    have hleafhash : Hb (strEncode
        (cellData seed x.toNat y.toNat (hasShipAt pos x.toNat y.toNat))) =
        (gridLeaves Hb seed gs pos).getD (x.toNat * gs + y.toNat) [] := by
      rw [gridLeaves_getD Hb seed gs pos _ hidx,
        gridData_getD seed gs pos x.toNat y.toNat hxlt hylt]
    rw [hleafhash, hgetProof]
    rw [foldPath_getProofF Hb (gridLeaves Hb seed gs pos).length
      (gridLeaves Hb seed gs pos) (x.toNat * gs + y.toNat)
      (le_refl _) (by omega) (by omega)]
    have hroot : merkleRoot Hb (gridLeaves Hb seed gs pos) =
        (treeFoldF Hb (gridLeaves Hb seed gs pos).length
          (gridLeaves Hb seed gs pos)).getD 0 [] := by
      unfold merkleRoot treeFold
      exact headD_eq_getD _ _ [] (treeFoldF_ne_nil Hb _ _ hne)
    rw [hroot]
    exact beq_self_eq_true _
  unfold merkleVerifyProof
  cases hs0 : hasShipAt pos x.toNat y.toNat with
  | false =>
    rw [hs0] at hsplit hfold
    simp only [hsplit, hs0, List.length_cons, List.length_nil, List.getD_cons_succ,
      List.getD_cons_zero, parseInt_natDigits, if_false]
    rw [if_neg (by decide : ¬(4 ≠ 4))]
    rw [if_neg (show ¬((((x.toNat : Int), (y.toNat : Int))) ≠ (x, y)) by
      simp [hxe, hye])]
    rw [if_neg (by decide)]
    rw [if_neg (by decide)]
    simp only [hmapM, hrootdec]
    rw [hfold]
  | true =>
    rw [hs0] at hsplit hfold
    simp only [hsplit, hs0, List.length_cons, List.length_nil, List.getD_cons_succ,
      List.getD_cons_zero, parseInt_natDigits, if_true]
    rw [if_neg (by decide : ¬(4 ≠ 4))]
    rw [if_neg (show ¬((((x.toNat : Int), (y.toNat : Int))) ≠ (x, y)) by
      simp [hxe, hye])]
    rw [if_neg (by decide)]
    rw [if_neg (by decide)]
    simp only [hmapM, hrootdec]
    rw [hfold]

theorem c4_proof_completeness_witness :
    ∃ p, generateProof hbLen [] 1 [] 0 0 = .ok p ∧
      merkleVerifyProof hbLen p (gridRootHex hbLen [] 1 []) = .ok true :=
  c4_proof_completeness hbLen
    (fun inp b hb => by
      simp only [hbLen, List.mem_singleton] at hb
      omega)
    [] (fun b hb => absurd hb (List.not_mem_nil b))
    1 [] 0 0 (by decide) (by decide) (by decide) (by decide)

/-- C3.  The verify_proof of the commitment scheme raises rather than returning
false on some malformed proofs: a leaf preimage with four fields but a non
numeric coordinate field makes int() raise ValueError (modelled as an
Except.error), contradicting the never-raise requirement. -/
theorem c3_malformed_proof_raises :
    merkleVerifyProof hbLen badProof "00".toList = .error "ValueError" := rfl

/-- C1.  The verify_proof of the orchestrator never verifies the proof
signature: on an environment whose signature verifier rejects every
signature, a cryptographically valid proof is still accepted with
"Proof verified and recorded", for every signature string supplied —
including an arbitrary garbage one.  The first conjunct exhibits the proof
as the honest output of generate_proof for the commitment the root comes
from; the second shows the verifier in force rejects everything yet the
result is valid. -/
theorem c1_signature_never_checked :
    generateProof hbLen [] 1 [] 0 0 = .ok proofX ∧
      (∀ m s k, envF.verify m s k = false) ∧
      ∀ sig : Str,
        (verifyProofP envF hbLen stOppSet proofX sig (gridRootHex hbLen [] 1 []) 0).map
            (fun r => (r.1.valid, r.1.reason)) =
          .ok (true, "Proof verified and recorded".toList) :=
  ⟨rfl, fun _ _ _ => rfl, fun _ => rfl⟩

end Battleship
